import Mathlib

/-!
Verification of the constraint encoder and solution enumerator of
connections-helper (src/main.rs).

The embedding is shallow: every Rust function is translated into an
executable Lean definition.

Modelling conventions, fixed once for the whole file:

* Item and group indices (`usize` in the source) become `Nat`; index
  arithmetic in this program never overflows (indices are positions in
  in-memory vectors).
* Names (`String` in the source) become an arbitrary linearly ordered type
  `σ`.  The program only ever compares names (sorting, binary search,
  equality), so its behaviour is invariant under order isomorphisms of the
  name alphabet; concrete instances in this file use `Char`.
* `panic!` is modelled as `Except.error` carrying the panic message, so
  `create_data` becomes a function into `Except String (Data σ)`.
* The two `while` loops (`intersection`, `binary_search`) are translated
  with an explicit fuel argument that is instantiated with the exact upper
  bound on the number of loop iterations (`|v1| + |v2|`, resp. `|xs|`), so
  the fuel can never run out; this keeps the definitions structurally
  recursive and hence computable by the kernel.
* Rust's stable `sort` is rendered as `List.insertionSort`: every sort in
  this program sorts by a total antisymmetric order (`usize`, `String`,
  `Vec<usize>` and tuple orders), for which all sorting algorithms produce
  the same output list.
* The SAT oracle (the z3 crate) is an external collaborator.  Its
  cardinality builders `atleast`/`atmost` are modelled by their documented
  counting semantics, and a boolean formula is modelled by its evaluation
  under an assignment of the decision variables, so "the solver yields a
  solution" becomes "the assignment evaluates every asserted formula to
  `true`".
-/

/-! ## Cardinality primitive (src/main.rs lines 109-111)

`z3::ast::atleast args k` is satisfied iff at least `k` of `args` are true
(duplicated arguments count once per occurrence), `atmost` dually.  We model
the formulas by their truth value on the list of argument values. -/

/-- Truth value of the oracle's "at least k of the given booleans" formula. -/
def atleast (vals : List Bool) (k : Nat) : Bool :=
  decide (k ≤ vals.count true)

/-- Truth value of the oracle's "at most k of the given booleans" formula. -/
def atmost (vals : List Bool) (k : Nat) : Bool :=
  decide (vals.count true ≤ k)

/-- Truth value of `exactly(args, k)` from src/main.rs lines 109-111:
the conjunction of `atleast` and `atmost` over the same argument list. -/
def exactly (vals : List Bool) (k : Nat) : Bool :=
  atleast vals k && atmost vals k

theorem exactly_iff_count (vals : List Bool) (k : Nat) :
    exactly vals k = true ↔ vals.count true = k := by
  simp only [exactly, atleast, atmost, Bool.and_eq_true, decide_eq_true_eq]
  omega

/-! ## Sorted-set utilities (src/main.rs lines 113-131)

`intersection` is the two-pointer merge.  The Rust `while` loop advances at
least one of the two cursors per iteration, so it runs at most
`v1.len() + v2.len()` iterations; `interGo`'s first argument is that
iteration budget. -/

/-- One iteration budget step of the `while i < v1.len() && j < v2.len()`
loop of `intersection`.  The suffixes starting at the cursors are passed
explicitly; the fuel never runs out when initialised with the sum of the
lengths. -/
def interGo : Nat → List Nat → List Nat → List Nat
  | 0, _, _ => []
  | _ + 1, [], _ => []
  | _ + 1, _ :: _, [] => []
  | fuel + 1, a :: as, b :: bs =>
    if a < b then interGo fuel as (b :: bs)
    else if b < a then interGo fuel (a :: as) bs
    else a :: interGo fuel as bs

/-- `intersection` from src/main.rs lines 113-131 (the loop body; the two
`debug_assert!` guards are modelled separately by `intersectionChecked`). -/
def intersection (v1 v2 : List Nat) : List Nat :=
  interGo (v1.length + v2.length) v1 v2

/-- Rust's `slice::is_sorted`: adjacent elements are non-decreasing. -/
def is_sorted : List Nat → Bool
  | [] => true
  | [_] => true
  | a :: b :: t => a ≤ b && is_sorted (b :: t)

/-- `intersection` together with its two `debug_assert!(…is_sorted())`
guards (src/main.rs lines 114-115): `none` models the assertion failure
(panic) raised when either input is unsorted, in a build with debug
assertions enabled. -/
def intersectionChecked (v1 v2 : List Nat) : Option (List Nat) :=
  if is_sorted v1 && is_sorted v2 then some (intersection v1 v2) else none

/-- Reference set intersection, following the spec's words: convert the
second sequence to a set (membership testing) and keep in order exactly the
members of the first sequence that lie in it.  For duplicate-free ascending
inputs this is the ascending sorted set intersection. -/
def setIntersectionRef (a b : List Nat) : List Nat :=
  a.filter (fun x => b.contains x)

theorem interGo_eq_filter :
    ∀ (fuel : Nat) (v1 v2 : List Nat), v1.length + v2.length ≤ fuel →
      v1.Sorted (· < ·) → v2.Sorted (· < ·) →
      interGo fuel v1 v2 = v1.filter (fun x => v2.contains x) := by
  intro fuel
  induction fuel with
  | zero =>
    intro v1 v2 hlen _ _
    have h1 : v1 = [] := List.eq_nil_of_length_eq_zero (by omega)
    have h2 : v2 = [] := List.eq_nil_of_length_eq_zero (by omega)
    subst h1; subst h2
    simp [interGo]
  | succ fuel ih =>
    intro v1 v2 hlen h1 h2
    match v1, v2 with
    | [], _ => simp [interGo]
    | a :: as, [] => simp [interGo]
    | a :: as, b :: bs =>
      have h1' : as.Sorted (· < ·) := h1.of_cons
      have h2' : bs.Sorted (· < ·) := h2.of_cons
      simp only [List.length_cons] at hlen
      by_cases hab : a < b
      · have hnotmem : ¬ a ∈ b :: bs := by
          intro hmem
          rcases List.mem_cons.mp hmem with h | h
          · omega
          · exact absurd hab (by have := List.rel_of_sorted_cons h2 a h; omega)
        rw [interGo, if_pos hab, ih as (b :: bs) (by simp; omega) h1' h2]
        simp only [List.filter_cons]
        rw [if_neg (by simpa using hnotmem)]
      · by_cases hba : b < a
        · rw [interGo, if_neg hab, if_pos hba, ih (a :: as) bs (by simp at *; omega) h1 h2']
          apply (List.filter_congr _).symm
          intro x hx
          have hxa : a ≤ x := by
            rcases List.mem_cons.mp hx with h | h
            · omega
            · have := List.rel_of_sorted_cons h1 x h; omega
          have hxb : (x == b) = false := by
            simp only [beq_eq_false_iff_ne, ne_eq]
            omega
          simp only [List.contains_cons, hxb, Bool.false_or]
        · have hab' : a = b := by omega
          subst hab'
          rw [interGo, if_neg hab, if_neg hba, ih as bs (by omega) h1' h2']
          simp only [List.filter_cons]
          rw [if_pos (by simp)]
          congr 1
          apply List.filter_congr
          intro x hx
          have hax : a < x := List.rel_of_sorted_cons h1 x hx
          have hxa : (x == a) = false := by
            simp only [beq_eq_false_iff_ne, ne_eq]
            omega
          simp only [List.contains_cons, hxa, Bool.false_or]

theorem intersection_eq_filter (v1 v2 : List Nat)
    (h1 : v1.Sorted (· < ·)) (h2 : v2.Sorted (· < ·)) :
    intersection v1 v2 = v1.filter (fun x => v2.contains x) :=
  interGo_eq_filter _ v1 v2 le_rfl h1 h2

theorem intersection_nil (v : List Nat) : intersection v [] = [] := by
  cases v <;> rfl

theorem intersection_sorted (v1 v2 : List Nat)
    (h1 : v1.Sorted (· < ·)) (h2 : v2.Sorted (· < ·)) :
    (intersection v1 v2).Sorted (· < ·) := by
  rw [intersection_eq_filter v1 v2 h1 h2]
  exact h1.filter _

theorem intersection_mem (v1 v2 : List Nat)
    (h1 : v1.Sorted (· < ·)) (h2 : v2.Sorted (· < ·)) (x : Nat) :
    x ∈ intersection v1 v2 ↔ x ∈ v1 ∧ x ∈ v2 := by
  rw [intersection_eq_filter v1 v2 h1 h2]
  simp [List.mem_filter, List.contains]

theorem intersection_comm (v1 v2 : List Nat)
    (h1 : v1.Sorted (· < ·)) (h2 : v2.Sorted (· < ·)) :
    intersection v1 v2 = intersection v2 v1 := by
  apply List.eq_of_perm_of_sorted _ (intersection_sorted v1 v2 h1 h2)
    (intersection_sorted v2 v1 h2 h1)
  apply (List.perm_ext_iff_of_nodup
    ((intersection_sorted v1 v2 h1 h2).nodup)
    ((intersection_sorted v2 v1 h2 h1).nodup)).mpr
  intro x
  rw [intersection_mem v1 v2 h1 h2, intersection_mem v2 v1 h2 h1]
  exact and_comm

theorem intersection_self (v : List Nat) (h : v.Sorted (· < ·)) :
    intersection v v = v := by
  rw [intersection_eq_filter v v h h]
  apply List.filter_eq_self.mpr
  intro x hx
  simpa [List.contains] using hx

/-! ## Domain model (src/main.rs lines 9-15) and raw configuration

`Data` is the canonical model produced by `create_data`.  `RawConfig` is the
already-parsed TOML content consumed by `create_data` (parsing itself is the
out-of-scope loader's responsibility; the `unwrap`s on the TOML structure
are part of that contract). -/

structure Data (σ : Type) where
  names : List σ
  props : List (σ × List Nat)
  avoid_grouping : List (List Nat)
  ignore_groups : List Nat

structure RawLimits (σ : Type) where
  avoid_grouping : List (List σ)
  ignore_groups : List σ

structure RawConfig (σ : Type) where
  names : List σ
  props : List (σ × List σ)
  limits : Option (RawLimits σ)

/-! ## Binary search (Rust `slice::binary_search_by_key`)

The loop halves `hi - lo` each iteration, so `xs.length` iterations always
suffice; `fuel` is that iteration budget.  `binary_search_by_key` with key
extraction `f` compares exactly like plain binary search on the `f`-image
of the slice, which is how call sites below use it. -/

def bsAux {σ : Type} [LinearOrder σ] (xs : List σ) (key : σ) :
    Nat → Nat → Nat → Option Nat
  | 0, _, _ => none
  | fuel + 1, lo, hi =>
    if lo < hi then
      match xs[lo + (hi - lo) / 2]? with
      | none => none
      | some v =>
        if v < key then bsAux xs key fuel (lo + (hi - lo) / 2 + 1) hi
        else if key < v then bsAux xs key fuel lo (lo + (hi - lo) / 2)
        else some (lo + (hi - lo) / 2)
    else none

def binary_search {σ : Type} [LinearOrder σ] (xs : List σ) (key : σ) : Option Nat :=
  bsAux xs key xs.length 0 xs.length

theorem bsAux_some {σ : Type} [LinearOrder σ] (xs : List σ) (key : σ) :
    ∀ (fuel lo hi i : Nat), bsAux xs key fuel lo hi = some i → xs[i]? = some key := by
  intro fuel
  induction fuel with
  | zero => intro lo hi i h; simp [bsAux] at h
  | succ fuel ih =>
    intro lo hi i h
    rw [bsAux] at h
    by_cases hlt : lo < hi
    · rw [if_pos hlt] at h
      cases hv : xs[lo + (hi - lo) / 2]? with
      | none => rw [hv] at h; exact absurd h (by simp)
      | some v =>
        rw [hv] at h
        dsimp only at h
        by_cases hvk : v < key
        · rw [if_pos hvk] at h; exact ih _ _ _ h
        · rw [if_neg hvk] at h
          by_cases hkv : key < v
          · rw [if_pos hkv] at h; exact ih _ _ _ h
          · rw [if_neg hkv] at h
            have hv' : v = key := le_antisymm (le_of_not_lt hkv) (le_of_not_lt hvk)
            have hi' : i = lo + (hi - lo) / 2 := (Option.some.injEq _ _).mp h.symm
            rw [hi', hv, hv']
    · rw [if_neg hlt] at h; exact absurd h (by simp)

theorem sorted_getElem_le {σ : Type} [LinearOrder σ] (xs : List σ)
    (hs : xs.Sorted (· ≤ ·)) (i j : Nat) (hij : i ≤ j) (hj : j < xs.length) :
    xs.get ⟨i, lt_of_le_of_lt hij hj⟩ ≤ xs.get ⟨j, hj⟩ := by
  rcases lt_or_eq_of_le hij with h | h
  · exact List.Sorted.rel_get_of_lt hs (by simpa using h)
  · subst h; exact le_rfl

theorem bsAux_complete {σ : Type} [LinearOrder σ] (xs : List σ) (key : σ)
    (hs : xs.Sorted (· ≤ ·)) :
    ∀ (fuel lo hi : Nat), hi - lo ≤ fuel → hi ≤ xs.length →
      (∃ idx, lo ≤ idx ∧ idx < hi ∧ xs[idx]? = some key) →
      ∃ i, bsAux xs key fuel lo hi = some i := by
  intro fuel
  induction fuel with
  | zero =>
    rintro lo hi hfuel hhi ⟨idx, h1, h2, _⟩
    omega
  | succ fuel ih =>
    rintro lo hi hfuel hhi ⟨idx, hlo, hidx, hkey⟩
    have hlt : lo < hi := by omega
    have hmidhi : lo + (hi - lo) / 2 < hi := by omega
    have hmidlen : lo + (hi - lo) / 2 < xs.length := by omega
    have hidxlen : idx < xs.length := by omega
    have hkey' : xs[idx] = key := by
      rw [List.getElem?_eq_getElem hidxlen] at hkey
      exact (Option.some.injEq _ _).mp hkey
    rw [bsAux, if_pos hlt, List.getElem?_eq_getElem hmidlen]
    dsimp only
    by_cases hvk : xs[lo + (hi - lo) / 2] < key
    · rw [if_pos hvk]
      apply ih _ hi (by omega) hhi
      refine ⟨idx, ?_, hidx, hkey⟩
      by_contra hcon
      have hle : idx ≤ lo + (hi - lo) / 2 := by omega
      have := sorted_getElem_le xs hs idx (lo + (hi - lo) / 2) hle hmidlen
      simp only [List.get_eq_getElem] at this
      rw [hkey'] at this
      exact absurd (lt_of_le_of_lt this hvk) (lt_irrefl key)
    · rw [if_neg hvk]
      by_cases hkv : key < xs[lo + (hi - lo) / 2]
      · rw [if_pos hkv]
        apply ih lo _ (by omega) (by omega)
        refine ⟨idx, hlo, ?_, hkey⟩
        by_contra hcon
        have hle : lo + (hi - lo) / 2 ≤ idx := by omega
        have := sorted_getElem_le xs hs _ idx hle hidxlen
        simp only [List.get_eq_getElem] at this
        rw [hkey'] at this
        exact absurd (lt_of_lt_of_le hkv this) (lt_irrefl key)
      · rw [if_neg hkv]
        exact ⟨lo + (hi - lo) / 2, rfl⟩

theorem binary_search_some_iff {σ : Type} [LinearOrder σ] (xs : List σ) (key : σ)
    (hs : xs.Sorted (· ≤ ·)) :
    (∃ i, binary_search xs key = some i) ↔ key ∈ xs := by
  constructor
  · rintro ⟨i, h⟩
    have := bsAux_some xs key _ _ _ _ h
    rcases List.getElem?_eq_some.mp this with ⟨hlen, hget⟩
    exact hget ▸ List.getElem_mem hlen
  · intro hmem
    rcases List.getElem_of_mem hmem with ⟨n, hn, hget⟩
    exact bsAux_complete xs key hs xs.length 0 xs.length (by omega) le_rfl
      ⟨n, by omega, hn, by rw [List.getElem?_eq_getElem hn, hget]⟩

/-! ## Lookup with the source's panic message (src/main.rs lines 36-40 etc.) -/

/-- The panic message `name "{}" not found` from src/main.rs. -/
def nameNotFound {σ : Type} [ToString σ] (n : σ) : String :=
  "name \"" ++ toString n ++ "\" not found"

/-- Resolution of one name reference: `binary_search` on the sorted array,
panicking (modelled as `Except.error`) when the name is absent. -/
def lookupOrErr {σ : Type} [LinearOrder σ] [ToString σ] (sortedNames : List σ)
    (n : σ) : Except String Nat :=
  match binary_search sortedNames n with
  | some i => .ok i
  | none => .error (nameNotFound n)

theorem lookupOrErr_ok_iff {σ : Type} [LinearOrder σ] [ToString σ]
    (sortedNames : List σ) (n : σ) (hs : sortedNames.Sorted (· ≤ ·)) :
    (∃ i, lookupOrErr sortedNames n = .ok i) ↔ n ∈ sortedNames := by
  rw [← binary_search_some_iff sortedNames n hs]
  unfold lookupOrErr
  cases h : binary_search sortedNames n with
  | none => simp [h]
  | some i => simp [h]

theorem lookupOrErr_error_shape {σ : Type} [LinearOrder σ] [ToString σ]
    (sortedNames : List σ) (n : σ) (e : String)
    (h : lookupOrErr sortedNames n = .error e) : e = nameNotFound n := by
  unfold lookupOrErr at h
  cases hb : binary_search sortedNames n with
  | none => rw [hb] at h; exact ((Except.error.injEq _ _).mp h).symm
  | some i => rw [hb] at h; exact absurd h (by simp)

/-! ## Sequenced fallible map

The source iterates with `.map(...).collect()` where the closure panics on
a failed lookup; evaluation is sequential and the first panic aborts the
run.  `mapE` is that iteration with panics as `Except.error`. -/

def mapE {α β : Type} (f : α → Except String β) : List α → Except String (List β)
  | [] => .ok []
  | x :: xs =>
    match f x with
    | .error e => .error e
    | .ok y =>
      match mapE f xs with
      | .error e => .error e
      | .ok ys => .ok (y :: ys)

theorem mapE_ok_iff {α β : Type} (f : α → Except String β) (l : List α) :
    (∃ v, mapE f l = .ok v) ↔ ∀ x ∈ l, ∃ y, f x = .ok y := by
  induction l with
  | nil => simp [mapE]
  | cons x xs ih =>
    simp only [mapE]
    constructor
    · rintro ⟨v, hv⟩
      cases hfx : f x with
      | error e => rw [hfx] at hv; exact absurd hv (by simp)
      | ok y =>
        rw [hfx] at hv
        cases hm : mapE f xs with
        | error e => rw [hm] at hv; exact absurd hv (by simp)
        | ok ys =>
          intro z hz
          rcases List.mem_cons.mp hz with h | h
          · exact ⟨y, h ▸ hfx⟩
          · exact (ih.mp ⟨ys, hm⟩) z h
    · intro h
      obtain ⟨y, hy⟩ := h x (List.mem_cons_self x xs)
      rw [hy]
      obtain ⟨ys, hys⟩ := ih.mpr (fun z hz => h z (List.mem_cons_of_mem _ hz))
      rw [hys]
      exact ⟨y :: ys, rfl⟩

theorem mapE_error_shape {α β : Type} (f : α → Except String β) (l : List α)
    (e : String) (h : mapE f l = .error e) : ∃ x ∈ l, f x = .error e := by
  induction l with
  | nil => exact absurd h (by simp [mapE])
  | cons x xs ih =>
    rw [mapE] at h
    cases hfx : f x with
    | error e' =>
      rw [hfx] at h
      exact ⟨x, List.mem_cons_self x xs, hfx.trans (congrArg Except.error ((Except.error.injEq _ _).mp h))⟩
    | ok y =>
      rw [hfx] at h
      cases hm : mapE f xs with
      | error e' =>
        rw [hm] at h
        obtain ⟨z, hz, hfz⟩ := ih (hm.trans (congrArg Except.error ((Except.error.injEq _ _).mp h)))
        exact ⟨z, List.mem_cons_of_mem _ hz, hfz⟩
      | ok ys => rw [hm] at h; exact absurd h (by simp)

theorem mapE_ok_mem {α β : Type} (f : α → Except String β) (l : List α)
    (v : List β) (h : mapE f l = .ok v) : ∀ y ∈ v, ∃ x ∈ l, f x = .ok y := by
  induction l generalizing v with
  | nil =>
    rw [mapE] at h
    rw [← (Except.ok.injEq _ _).mp h]
    intro y hy
    exact absurd hy (List.not_mem_nil y)
  | cons x xs ih =>
    rw [mapE] at h
    cases hfx : f x with
    | error e => rw [hfx] at h; exact absurd h (by simp)
    | ok y =>
      rw [hfx] at h
      cases hm : mapE f xs with
      | error e => rw [hm] at h; exact absurd h (by simp)
      | ok ys =>
        rw [hm] at h
        rw [← (Except.ok.injEq _ _).mp h]
        intro z hz
        rcases List.mem_cons.mp hz with hzy | hzys
        · exact ⟨x, List.mem_cons_self x xs, hzy ▸ hfx⟩
        · obtain ⟨w, hw, hfw⟩ := ih ys hm z hzys
          exact ⟨w, List.mem_cons_of_mem _ hw, hfw⟩

theorem mapE_ok_map {α β γ : Type} (f : α → Except String β) (g : β → γ) (p : α → γ)
    (hf : ∀ x y, f x = .ok y → g y = p x) (l : List α) (v : List β)
    (h : mapE f l = .ok v) : v.map g = l.map p := by
  induction l generalizing v with
  | nil =>
    rw [mapE] at h
    rw [← (Except.ok.injEq _ _).mp h]
    rfl
  | cons x xs ih =>
    rw [mapE] at h
    cases hfx : f x with
    | error e => rw [hfx] at h; exact absurd h (by simp)
    | ok y =>
      rw [hfx] at h
      cases hm : mapE f xs with
      | error e => rw [hm] at h; exact absurd h (by simp)
      | ok ys =>
        rw [hm] at h
        rw [← (Except.ok.injEq _ _).mp h]
        simp only [List.map_cons]
        rw [hf x y hfx, ih ys hm]

/-! ## The orders used by the source's sort() calls

Rust's `Vec::sort` sorts by `Ord`: `usize` ascending, `Vec<usize>` and
tuples lexicographically, strings by their linear order.  Since all of
these are total antisymmetric orders, the sorted result is unique and any
sorting algorithm produces it; we use `List.insertionSort`. -/

/-- Rust's `Ord` for `Vec<usize>` as a boolean `≤` test: lexicographic,
a strict prefix preceding its extensions. -/
def vecLe : List Nat → List Nat → Bool
  | [], _ => true
  | _ :: _, [] => false
  | a :: as, b :: bs =>
    if a < b then true
    else if b < a then false
    else vecLe as bs

/-- Propositional form of `vecLe`, usable as a sorting relation. -/
def vecRel (a b : List Nat) : Prop := vecLe a b = true

instance : DecidableRel vecRel := fun a b => inferInstanceAs (Decidable (vecLe a b = true))

theorem vecLe_total : ∀ a b : List Nat, vecLe a b = true ∨ vecLe b a = true
  | [], _ => Or.inl rfl
  | _ :: _, [] => Or.inr rfl
  | a :: as, b :: bs => by
    by_cases hab : a < b
    · exact Or.inl (by rw [vecLe, if_pos hab])
    · by_cases hba : b < a
      · exact Or.inr (by rw [vecLe, if_pos hba])
      · rcases vecLe_total as bs with h | h
        · exact Or.inl (by rw [vecLe, if_neg hab, if_neg hba]; exact h)
        · exact Or.inr (by rw [vecLe, if_neg hba, if_neg hab]; exact h)

theorem vecLe_cons_iff (a b : Nat) (as bs : List Nat) :
    vecLe (a :: as) (b :: bs) = true ↔ a < b ∨ (a = b ∧ vecLe as bs = true) := by
  rw [vecLe]
  by_cases h1 : a < b
  · simp [h1]
  · by_cases h2 : b < a
    · rw [if_neg h1, if_pos h2]
      simp only [Bool.false_eq_true, false_iff]
      rintro (h | ⟨h, _⟩) <;> omega
    · have hab : a = b := by omega
      subst hab
      rw [if_neg h1, if_neg h2]
      simp

theorem vecLe_trans :
    ∀ a b c : List Nat, vecLe a b = true → vecLe b c = true → vecLe a c = true
  | [], _, _, _, _ => rfl
  | _ :: _, [], _, hab, _ => absurd hab (by simp [vecLe])
  | _ :: _, _ :: _, [], _, hbc => absurd hbc (by simp [vecLe])
  | a :: as, b :: bs, c :: cs, hab, hbc => by
    rw [vecLe_cons_iff] at hab hbc ⊢
    rcases hab with h1 | ⟨h1, hv1⟩
    · exact Or.inl (by rcases hbc with h2 | ⟨h2, _⟩ <;> omega)
    · rcases hbc with h2 | ⟨h2, hv2⟩
      · exact Or.inl (by omega)
      · exact Or.inr ⟨by omega, vecLe_trans as bs cs hv1 hv2⟩

instance : IsTotal (List Nat) vecRel := ⟨vecLe_total⟩

instance : IsTrans (List Nat) vecRel := ⟨fun a b c => vecLe_trans a b c⟩

/-- Rust's `Ord` for the tuples `(String, Vec<usize>)` stored in `props`:
lexicographic on the pair. -/
def propRel {σ : Type} [LinearOrder σ] (a b : σ × List Nat) : Prop :=
  a.1 < b.1 ∨ (a.1 = b.1 ∧ vecRel a.2 b.2)

instance {σ : Type} [LinearOrder σ] : DecidableRel (@propRel σ _) := fun a b => by
  unfold propRel
  infer_instance

instance {σ : Type} [LinearOrder σ] : IsTotal (σ × List Nat) (@propRel σ _) := by
  constructor
  intro a b
  rcases lt_trichotomy a.1 b.1 with h | h | h
  · exact Or.inl (Or.inl h)
  · rcases vecLe_total a.2 b.2 with hv | hv
    · exact Or.inl (Or.inr ⟨h, hv⟩)
    · exact Or.inr (Or.inr ⟨h.symm, hv⟩)
  · exact Or.inr (Or.inl h)

instance {σ : Type} [LinearOrder σ] : IsTrans (σ × List Nat) (@propRel σ _) := by
  constructor
  intro a b c hab hbc
  rcases hab with h1 | ⟨h1, hv1⟩
  · rcases hbc with h2 | ⟨h2, hv2⟩
    · exact Or.inl (lt_trans h1 h2)
    · exact Or.inl (h2 ▸ h1)
  · rcases hbc with h2 | ⟨h2, hv2⟩
    · exact Or.inl (h1 ▸ h2)
    · exact Or.inr ⟨h1.trans h2, vecLe_trans _ _ _ hv1 hv2⟩

theorem propRel_fst_le {σ : Type} [LinearOrder σ] (a b : σ × List Nat)
    (h : propRel a b) : a.1 ≤ b.1 := by
  rcases h with h | ⟨h, _⟩
  · exact le_of_lt h
  · exact le_of_eq h

/-! ## create_data (src/main.rs lines 17-107) -/

/-- Propagation of a panic out of a loop body: apply `f` to the value when
the body succeeded, keep the error otherwise. -/
def wrapOk {β γ : Type} (f : β → γ) : Except String β → Except String γ
  | .error e => .error e
  | .ok v => .ok (f v)

theorem wrapOk_ok_iff {β γ : Type} (f : β → γ) (g : Except String β) :
    (∃ y, wrapOk f g = .ok y) ↔ ∃ v, g = .ok v := by
  cases g <;> simp [wrapOk]

theorem wrapOk_ok_val {β γ : Type} (f : β → γ) (g : Except String β) (v : β)
    (h : g = .ok v) : wrapOk f g = .ok (f v) := by
  rw [h]; rfl

theorem wrapOk_ok_inv {β γ : Type} (f : β → γ) (g : Except String β) (y : γ)
    (h : wrapOk f g = .ok y) : ∃ v, g = .ok v ∧ y = f v := by
  cases g with
  | error e => exact absurd h (by simp [wrapOk])
  | ok v => exact ⟨v, rfl, ((Except.ok.injEq _ _).mp h).symm⟩

theorem wrapOk_error_iff {β γ : Type} (f : β → γ) (g : Except String β) (e : String) :
    wrapOk f g = .error e ↔ g = .error e := by
  cases g <;> simp [wrapOk]

/-- Resolution of a list of item-name references against the sorted name
array (the `.map(...).collect()` loops at src/main.rs lines 30-42 and
58-70). -/
def resolveNames {σ : Type} [LinearOrder σ] [ToString σ] (sortedNames : List σ)
    (ns : List σ) : Except String (List Nat) :=
  mapE (fun n => lookupOrErr sortedNames n) ns

/-- The `props` loop of `create_data` (src/main.rs lines 29-45): resolve
each group's member names and sort each member list. -/
def resolveProps {σ : Type} [LinearOrder σ] [ToString σ] (sortedNames : List σ)
    (props : List (σ × List σ)) : Except String (List (σ × List Nat)) :=
  mapE (fun p =>
    wrapOk (fun v => (p.1, List.insertionSort (· ≤ ·) v))
      (resolveNames sortedNames p.2)) props

/-- The `avoid-grouping` loop of `create_data` (src/main.rs lines 51-74):
resolve each avoid-set's names and sort each index list. -/
def resolveAvoid {σ : Type} [LinearOrder σ] [ToString σ] (sortedNames : List σ)
    (avoid : List (List σ)) : Except String (List (List Nat)) :=
  mapE (fun ns =>
    wrapOk (fun v => List.insertionSort (· ≤ ·) v)
      (resolveNames sortedNames ns)) avoid

/-- The `ignore-group` loop of `create_data` (src/main.rs lines 78-92):
resolve each ignored group name by binary search on the (name-sorted)
group array keyed by the group name. -/
def resolveIgnore {σ : Type} [LinearOrder σ] [ToString σ] (props : List (σ × List Nat))
    (igs : List σ) : Except String (List Nat) :=
  mapE (fun n => lookupOrErr (props.map Prod.fst) n) igs

/-- `create_data` from src/main.rs lines 17-107, with the parsed TOML
content abstracted as a `RawConfig`.  Stages in source order: sort the
names, resolve and sort each group, sort the group list, then (when a
`limits` table is present) resolve and sort the avoid-sets and the ignored
group indices. -/
def create_data {σ : Type} [LinearOrder σ] [ToString σ] (cfg : RawConfig σ) :
    Except String (Data σ) :=
  match resolveProps (List.insertionSort (· ≤ ·) cfg.names) cfg.props with
  | .error e => .error e
  | .ok props0 =>
    match cfg.limits with
    | none =>
      .ok ⟨List.insertionSort (· ≤ ·) cfg.names,
        List.insertionSort propRel props0, [], []⟩
    | some lim =>
      match resolveAvoid (List.insertionSort (· ≤ ·) cfg.names) lim.avoid_grouping with
      | .error e => .error e
      | .ok avoid0 =>
        match resolveIgnore (List.insertionSort propRel props0) lim.ignore_groups with
        | .error e => .error e
        | .ok ignore0 =>
          .ok ⟨List.insertionSort (· ≤ ·) cfg.names,
            List.insertionSort propRel props0,
            List.insertionSort vecRel avoid0,
            List.insertionSort (· ≤ ·) ignore0⟩

/-- The no-miss condition of the spec: a lookup miss exists iff some item
name referenced in a group or avoid-set is absent from the item universe,
or some ignore-group name has no corresponding group. -/
def hasMiss {σ : Type} [DecidableEq σ] (cfg : RawConfig σ) : Bool :=
  cfg.props.any (fun p => p.2.any (fun n => !(cfg.names.contains n))) ||
  (match cfg.limits with
   | none => false
   | some lim =>
     lim.avoid_grouping.any (fun l => l.any (fun n => !(cfg.names.contains n))) ||
     lim.ignore_groups.any (fun n => !((cfg.props.map Prod.fst).contains n)))

/-! ## Lookup-failure characterisation of create_data -/

theorem resolveNames_ok_iff {σ : Type} [LinearOrder σ] [ToString σ]
    (sn ns : List σ) (hs : sn.Sorted (· ≤ ·)) :
    (∃ v, resolveNames sn ns = .ok v) ↔ ∀ n ∈ ns, n ∈ sn := by
  rw [resolveNames, mapE_ok_iff]
  constructor
  · exact fun h n hn => (lookupOrErr_ok_iff sn n hs).mp (h n hn)
  · exact fun h n hn => (lookupOrErr_ok_iff sn n hs).mpr (h n hn)

theorem resolveNames_error_shape {σ : Type} [LinearOrder σ] [ToString σ]
    (sn ns : List σ) (e : String) (h : resolveNames sn ns = .error e) :
    ∃ n : σ, e = nameNotFound n := by
  rw [resolveNames] at h
  obtain ⟨x, _, hx⟩ := mapE_error_shape _ _ _ h
  exact ⟨x, lookupOrErr_error_shape sn x e hx⟩

theorem resolveProps_ok_iff {σ : Type} [LinearOrder σ] [ToString σ] (sn : List σ)
    (ps : List (σ × List σ)) (hs : sn.Sorted (· ≤ ·)) :
    (∃ v, resolveProps sn ps = .ok v) ↔ ∀ p ∈ ps, ∀ n ∈ p.2, n ∈ sn := by
  rw [resolveProps, mapE_ok_iff]
  constructor
  · intro h p hp
    obtain ⟨v, hv⟩ := (wrapOk_ok_iff _ _).mp (h p hp)
    exact (resolveNames_ok_iff sn p.2 hs).mp ⟨v, hv⟩
  · intro h p hp
    obtain ⟨v, hv⟩ := (resolveNames_ok_iff sn p.2 hs).mpr (h p hp)
    exact ⟨_, wrapOk_ok_val _ _ _ hv⟩

theorem resolveProps_error_shape {σ : Type} [LinearOrder σ] [ToString σ] (sn : List σ)
    (ps : List (σ × List σ)) (e : String) (h : resolveProps sn ps = .error e) :
    ∃ n : σ, e = nameNotFound n := by
  rw [resolveProps] at h
  obtain ⟨p, _, hp⟩ := mapE_error_shape _ _ _ h
  exact resolveNames_error_shape sn p.2 e ((wrapOk_error_iff _ _ _).mp hp)

theorem resolveProps_ok_fst {σ : Type} [LinearOrder σ] [ToString σ] (sn : List σ)
    (ps : List (σ × List σ)) (v : List (σ × List Nat))
    (h : resolveProps sn ps = .ok v) : v.map Prod.fst = ps.map Prod.fst := by
  rw [resolveProps] at h
  apply mapE_ok_map _ _ _ _ _ _ h
  intro x y hxy
  obtain ⟨w, _, hw⟩ := wrapOk_ok_inv _ _ _ hxy
  rw [hw]

theorem resolveAvoid_ok_iff {σ : Type} [LinearOrder σ] [ToString σ] (sn : List σ)
    (av : List (List σ)) (hs : sn.Sorted (· ≤ ·)) :
    (∃ v, resolveAvoid sn av = .ok v) ↔ ∀ l ∈ av, ∀ n ∈ l, n ∈ sn := by
  rw [resolveAvoid, mapE_ok_iff]
  constructor
  · intro h l hl
    obtain ⟨v, hv⟩ := (wrapOk_ok_iff _ _).mp (h l hl)
    exact (resolveNames_ok_iff sn l hs).mp ⟨v, hv⟩
  · intro h l hl
    obtain ⟨v, hv⟩ := (resolveNames_ok_iff sn l hs).mpr (h l hl)
    exact ⟨_, wrapOk_ok_val _ _ _ hv⟩

theorem resolveAvoid_error_shape {σ : Type} [LinearOrder σ] [ToString σ] (sn : List σ)
    (av : List (List σ)) (e : String) (h : resolveAvoid sn av = .error e) :
    ∃ n : σ, e = nameNotFound n := by
  rw [resolveAvoid] at h
  obtain ⟨l, _, hl⟩ := mapE_error_shape _ _ _ h
  exact resolveNames_error_shape sn l e ((wrapOk_error_iff _ _ _).mp hl)

theorem resolveAvoid_ok_sorted {σ : Type} [LinearOrder σ] [ToString σ] (sn : List σ)
    (av : List (List σ)) (v : List (List Nat)) (h : resolveAvoid sn av = .ok v) :
    ∀ l ∈ v, l.Sorted (· ≤ ·) := by
  rw [resolveAvoid] at h
  intro l hl
  obtain ⟨ns, _, hns⟩ := mapE_ok_mem _ _ _ h l hl
  obtain ⟨w, _, hw⟩ := wrapOk_ok_inv _ _ _ hns
  rw [hw]
  exact List.sorted_insertionSort _ w

theorem resolveIgnore_ok_iff {σ : Type} [LinearOrder σ] [ToString σ]
    (props : List (σ × List Nat)) (igs : List σ)
    (hs : (props.map Prod.fst).Sorted (· ≤ ·)) :
    (∃ v, resolveIgnore props igs = .ok v) ↔ ∀ n ∈ igs, n ∈ props.map Prod.fst := by
  rw [resolveIgnore, mapE_ok_iff]
  constructor
  · exact fun h n hn => (lookupOrErr_ok_iff _ n hs).mp (h n hn)
  · exact fun h n hn => (lookupOrErr_ok_iff _ n hs).mpr (h n hn)

theorem resolveIgnore_error_shape {σ : Type} [LinearOrder σ] [ToString σ]
    (props : List (σ × List Nat)) (igs : List σ) (e : String)
    (h : resolveIgnore props igs = .error e) : ∃ n : σ, e = nameNotFound n := by
  rw [resolveIgnore] at h
  obtain ⟨x, _, hx⟩ := mapE_error_shape _ _ _ h
  exact ⟨x, lookupOrErr_error_shape _ x e hx⟩

theorem sorted_props_map_fst {σ : Type} [LinearOrder σ] (l : List (σ × List Nat)) :
    ((List.insertionSort (@propRel σ _) l).map Prod.fst).Sorted (· ≤ ·) := by
  rw [List.Sorted, List.pairwise_map]
  exact (List.sorted_insertionSort _ l).imp (fun h => propRel_fst_le _ _ h)

theorem insortLe_mem {σ : Type} [LinearOrder σ] (l : List σ) (x : σ) :
    x ∈ List.insertionSort (· ≤ ·) l ↔ x ∈ l :=
  (List.perm_insertionSort _ l).mem_iff

theorem hasMiss_false_iff {σ : Type} [DecidableEq σ] (cfg : RawConfig σ) :
    hasMiss cfg = false ↔
      ((∀ p ∈ cfg.props, ∀ n ∈ p.2, n ∈ cfg.names) ∧
       ∀ lim, cfg.limits = some lim →
         ((∀ l ∈ lim.avoid_grouping, ∀ n ∈ l, n ∈ cfg.names) ∧
          (∀ n ∈ lim.ignore_groups, n ∈ cfg.props.map Prod.fst))) := by
  obtain ⟨nms, ps, lims⟩ := cfg
  cases lims with
  | none => simp [hasMiss, List.contains]
  | some lim => simp [hasMiss, List.contains]

theorem create_data_ok_of_noMiss {σ : Type} [LinearOrder σ] [ToString σ]
    (cfg : RawConfig σ) (hm : hasMiss cfg = false) :
    ∃ d, create_data cfg = .ok d := by
  obtain ⟨hmp, hlim⟩ := (hasMiss_false_iff cfg).mp hm
  obtain ⟨nms, ps, lims⟩ := cfg
  have hsort : (List.insertionSort (· ≤ ·) nms).Sorted (· ≤ ·) :=
    List.sorted_insertionSort _ nms
  obtain ⟨props0, hrp⟩ := (resolveProps_ok_iff _ ps hsort).mpr
    (fun p hp n hn => (insortLe_mem nms n).mpr (hmp p hp n hn))
  cases lims with
  | none =>
    rw [create_data, hrp]
    exact ⟨_, rfl⟩
  | some lim =>
    obtain ⟨hma, hmi⟩ := hlim lim rfl
    obtain ⟨avoid0, hra⟩ := (resolveAvoid_ok_iff _ lim.avoid_grouping hsort).mpr
      (fun l hl n hn => (insortLe_mem nms n).mpr (hma l hl n hn))
    have hfst : List.Perm ((List.insertionSort propRel props0).map Prod.fst)
        (ps.map Prod.fst) := by
      rw [← resolveProps_ok_fst _ ps props0 hrp]
      exact (List.perm_insertionSort propRel props0).map Prod.fst
    obtain ⟨ignore0, hri⟩ :=
      (resolveIgnore_ok_iff (List.insertionSort propRel props0) lim.ignore_groups
        (sorted_props_map_fst props0)).mpr
      (fun n hn => hfst.mem_iff.mpr (hmi n hn))
    rw [create_data, hrp]
    dsimp only
    rw [hra, hri]
    exact ⟨_, rfl⟩

theorem create_data_noMiss_of_ok {σ : Type} [LinearOrder σ] [ToString σ]
    (cfg : RawConfig σ) (d : Data σ) (h : create_data cfg = .ok d) :
    hasMiss cfg = false := by
  apply (hasMiss_false_iff cfg).mpr
  obtain ⟨nms, ps, lims⟩ := cfg
  have hsort : (List.insertionSort (· ≤ ·) nms).Sorted (· ≤ ·) :=
    List.sorted_insertionSort _ nms
  rw [create_data] at h
  cases hrp : resolveProps (List.insertionSort (· ≤ ·) nms) ps with
  | error e => rw [hrp] at h; exact absurd h (by simp)
  | ok props0 =>
    rw [hrp] at h
    dsimp only at h
    have hmp : ∀ p ∈ ps, ∀ n ∈ p.2, n ∈ nms := fun p hp n hn =>
      (insortLe_mem nms n).mp ((resolveProps_ok_iff _ ps hsort).mp ⟨props0, hrp⟩ p hp n hn)
    cases lims with
    | none =>
      refine ⟨hmp, ?_⟩
      intro lim hlim
      exact absurd hlim (by simp)
    | some lim =>
      dsimp only at h
      refine ⟨hmp, ?_⟩
      rintro lim' hlim'
      have hll : lim' = lim := by
        have := (Option.some.injEq _ _).mp hlim'
        exact this.symm
      subst hll
      cases hra : resolveAvoid (List.insertionSort (· ≤ ·) nms) lim'.avoid_grouping with
      | error e => rw [hra] at h; exact absurd h (by simp)
      | ok avoid0 =>
        rw [hra] at h
        dsimp only at h
        cases hri : resolveIgnore (List.insertionSort propRel props0) lim'.ignore_groups with
        | error e => rw [hri] at h; exact absurd h (by simp)
        | ok ignore0 =>
          have hma : ∀ l ∈ lim'.avoid_grouping, ∀ n ∈ l, n ∈ nms := fun l hl n hn =>
            (insortLe_mem nms n).mp
              ((resolveAvoid_ok_iff _ lim'.avoid_grouping hsort).mp ⟨avoid0, hra⟩ l hl n hn)
          have hfst : List.Perm ((List.insertionSort propRel props0).map Prod.fst)
              (ps.map Prod.fst) := by
            rw [← resolveProps_ok_fst _ ps props0 hrp]
            exact (List.perm_insertionSort propRel props0).map Prod.fst
          have hmi : ∀ n ∈ lim'.ignore_groups, n ∈ ps.map Prod.fst := fun n hn =>
            hfst.mem_iff.mp
              ((resolveIgnore_ok_iff _ lim'.ignore_groups (sorted_props_map_fst props0)).mp
                ⟨ignore0, hri⟩ n hn)
          exact ⟨hma, hmi⟩

theorem create_data_error_shape {σ : Type} [LinearOrder σ] [ToString σ]
    (cfg : RawConfig σ) (e : String) (h : create_data cfg = .error e) :
    ∃ n : σ, e = nameNotFound n := by
  obtain ⟨nms, ps, lims⟩ := cfg
  rw [create_data] at h
  cases hrp : resolveProps (List.insertionSort (· ≤ ·) nms) ps with
  | error e' =>
    rw [hrp] at h
    obtain ⟨n, hn⟩ := resolveProps_error_shape _ ps e' hrp
    exact ⟨n, by rw [← (Except.error.injEq _ _).mp h, hn]⟩
  | ok props0 =>
    rw [hrp] at h
    dsimp only at h
    cases lims with
    | none => exact absurd h (by simp)
    | some lim =>
      dsimp only at h
      cases hra : resolveAvoid (List.insertionSort (· ≤ ·) nms) lim.avoid_grouping with
      | error e' =>
        rw [hra] at h
        obtain ⟨n, hn⟩ := resolveAvoid_error_shape _ lim.avoid_grouping e' hra
        exact ⟨n, by rw [← (Except.error.injEq _ _).mp h, hn]⟩
      | ok avoid0 =>
        rw [hra] at h
        dsimp only at h
        cases hri : resolveIgnore (List.insertionSort propRel props0) lim.ignore_groups with
        | error e' =>
          rw [hri] at h
          obtain ⟨n, hn⟩ := resolveIgnore_error_shape _ lim.ignore_groups e' hri
          exact ⟨n, by rw [← (Except.error.injEq _ _).mp h, hn]⟩
        | ok ignore0 =>
          rw [hri] at h
          exact absurd h (by simp)

/-! ## Constraint encoder (src/main.rs lines 133-217)

A boolean formula asserted on the solver is modelled by its truth value
under an assignment of the decision variables; `main`'s assertions become
the boolean-valued evaluators below. -/

/-- A candidate assignment of the decision variables: one boolean per item
("name") variable and one per group variable, indexed by position in the
canonical arrays of the domain model. -/
structure Assignment where
  item : Nat → Bool
  group : Nat → Bool

/-- Member index list of group `j` (`data.props[j].1` in the source). -/
def members {σ : Type} (d : Data σ) (j : Nat) : List Nat :=
  (d.props.map Prod.snd).getD j []

/-- For the `i`th name, the groups containing it (src/main.rs lines
139-150). -/
def groups_of_names {σ : Type} (d : Data σ) (i : Nat) : List Nat :=
  (List.range d.props.length).filter (fun j => (members d j).contains i)

/-- The `pairwise` vector (src/main.rs lines 152-165): every unordered pair
of distinct groups, as `(i, j)` with `j < i`, paired with the intersection
of the two member lists. -/
def pairwiseList {σ : Type} (d : Data σ) : List (Nat × Nat × List Nat) :=
  (List.range d.props.length).flatMap (fun i =>
    (List.range i).map (fun j => (i, j, intersection (members d i) (members d j))))

/-- Truth value under `v` of the membership formulas (src/main.rs lines
170-174): `selected(i) ⟹ OR(active(g) for g containing i)`. -/
def evalMembership {σ : Type} (d : Data σ) (v : Assignment) : Bool :=
  (List.range d.names.length).all (fun i =>
    !(v.item i) || (groups_of_names d i).any (fun j => v.group j))

/-- Truth value under `v` of the overlap-coherence formula built for one
entry of the `pairwise` vector (src/main.rs lines 178-184). -/
def evalPairFormula (v : Assignment) (t : Nat × Nat × List Nat) : Bool :=
  !(v.group t.1 && v.group t.2.1 && t.2.2.any (fun x => v.item x)) ||
    exactly (t.2.2.map (fun x => v.item x)) 4

/-- Truth value under `v` of all overlap-coherence assertions. -/
def evalPairwise {σ : Type} (d : Data σ) (v : Assignment) : Bool :=
  (pairwiseList d).all (evalPairFormula v)

/-- Truth value under `v` of the group-cardinality formulas (src/main.rs
lines 187-191): an active group has exactly four members selected. -/
def evalGroupCard {σ : Type} (d : Data σ) (v : Assignment) : Bool :=
  (List.range d.props.length).all (fun j =>
    !(v.group j) || exactly ((members d j).map (fun x => v.item x)) 4)

/-- Truth value under `v` of the avoid-grouping formulas (src/main.rs lines
195-209). -/
def evalAvoid {σ : Type} (d : Data σ) (v : Assignment) : Bool :=
  (List.range d.props.length).all (fun j =>
    d.avoid_grouping.all (fun avoid =>
      (List.range (intersection (members d j) avoid).length).all (fun p =>
        (List.range p).all (fun q =>
          !(v.group j && v.item ((intersection (members d j) avoid).getD p 0) &&
            v.item ((intersection (members d j) avoid).getD q 0))))))

/-- Truth value under `v` of the ignore-group formulas (src/main.rs lines
212-214). -/
def evalIgnore {σ : Type} (d : Data σ) (v : Assignment) : Bool :=
  d.ignore_groups.all (fun r => !(v.group r))

/-- Truth value under `v` of the global-total formula (src/main.rs lines
216-217): exactly sixteen items selected. -/
def evalTotal {σ : Type} (d : Data σ) (v : Assignment) : Bool :=
  exactly ((List.range d.names.length).map (fun i => v.item i)) 16

/-- Truth value under `v` of the conjunction of every formula `main`
asserts on the solver. -/
def assertedConstraints {σ : Type} (d : Data σ) (v : Assignment) : Bool :=
  evalMembership d v && evalPairwise d v && evalGroupCard d v &&
    evalAvoid d v && evalIgnore d v && evalTotal d v

/-! ## Solution enumerator (src/main.rs lines 222-225) -/

/-- Projection of an assignment onto the two designated variable sequences:
the value vectors (`name_solution`, `group_solution`) the oracle reports
for one solution. -/
def projectSolution {σ : Type} (d : Data σ) (v : Assignment) : List Bool × List Bool :=
  ((List.range d.names.length).map v.item, (List.range d.props.length).map v.group)

/-- Modelled from the spec: the contract of the oracle's `solutions`
operation (the z3 crate's enumerator, an external collaborator, spec §4.5).
Every yielded assignment satisfies all asserted formulas, and after each
solution the oracle adds a blocking clause forbidding the exact projected
assignment just found, so the projected assignments of the stream are
pairwise distinct.  `sols` stands for the stream the oracle produces. -/
def OracleStream {σ : Type} (d : Data σ) (sols : List Assignment) : Prop :=
  (∀ v ∈ sols, assertedConstraints d v = true) ∧
  List.Pairwise (fun v w => projectSolution d v ≠ projectSolution d w) sols

/-- The enumeration loop of `main` (src/main.rs lines 222-225): consume at
most 10 elements of the oracle's solution stream (`.take(10)`). -/
def mainSolutions (sols : List Assignment) : List Assignment :=
  sols.take 10

/-- Modelled from the spec: the overlap-coherence encoder variant that
*skips* the pairs with empty member intersection (spec §4.4 constraint
family 2), asserting formulas only for pairs whose intersection is
nonempty. -/
def pairwiseListSkip {σ : Type} (d : Data σ) : List (Nat × Nat × List Nat) :=
  (pairwiseList d).filter (fun t => !(t.2.2.isEmpty))

/-- Truth value of the overlap-coherence assertions of the skipping
encoder variant. -/
def evalPairwiseSkip {σ : Type} (d : Data σ) (v : Assignment) : Bool :=
  (pairwiseListSkip d).all (evalPairFormula v)

/-- Truth value of the full assertion set of the skipping encoder
variant. -/
def assertedConstraintsSkip {σ : Type} (d : Data σ) (v : Assignment) : Bool :=
  evalMembership d v && evalPairwiseSkip d v && evalGroupCard d v &&
    evalAvoid d v && evalIgnore d v && evalTotal d v

/-! ## Helper lemmas about the encoder -/

theorem evalPairFormula_empty (v : Assignment) (a b : Nat) :
    evalPairFormula v (a, b, ([] : List Nat)) = true := by
  simp [evalPairFormula]

theorem all_filter_of_true {α : Type} (l : List α) (p : α → Bool) (f : α → Bool)
    (h : ∀ x ∈ l, p x = false → f x = true) :
    l.all f = (l.filter p).all f := by
  induction l with
  | nil => rfl
  | cons x xs ih =>
    rw [List.filter_cons]
    by_cases hp : p x = true
    · rw [if_pos hp, List.all_cons, List.all_cons,
        ih (fun y hy => h y (List.mem_cons_of_mem _ hy))]
    · have hp' : p x = false := by
        cases hpx : p x
        · rfl
        · exact absurd hpx hp
      rw [if_neg (by rw [hp']; exact Bool.false_ne_true), List.all_cons,
        h x (List.mem_cons_self x xs) hp', Bool.true_and,
        ih (fun y hy => h y (List.mem_cons_of_mem _ hy))]

theorem mem_mainSolutions (sols : List Assignment) (v : Assignment)
    (h : v ∈ mainSolutions sols) : v ∈ sols :=
  List.mem_of_mem_take h

theorem assertedConstraints_total {σ : Type} (d : Data σ) (v : Assignment)
    (h : assertedConstraints d v = true) :
    ((List.range d.names.length).map (fun i => v.item i)).count true = 16 := by
  rw [assertedConstraints] at h
  simp only [Bool.and_eq_true] at h
  exact (exactly_iff_count _ _).mp h.2

theorem assertedConstraints_groupCard {σ : Type} (d : Data σ) (v : Assignment)
    (h : assertedConstraints d v = true) (j : Nat) (hj : j < d.props.length)
    (hg : v.group j = true) :
    ((members d j).map (fun x => v.item x)).count true = 4 := by
  rw [assertedConstraints] at h
  simp only [Bool.and_eq_true] at h
  have hgc := h.1.1.1.2
  simp only [evalGroupCard, List.all_eq_true] at hgc
  have := hgc j (List.mem_range.mpr hj)
  rw [hg] at this
  simp only [Bool.not_true, Bool.false_or] at this
  exact (exactly_iff_count _ _).mp this

/-! ## Concrete instances used by witnesses and counterexamples -/

/-- A 16-item, four-group instance: four disjoint groups of four. -/
def dEx : Data Char :=
  ⟨['a', 'b', 'c', 'd', 'e', 'f', 'g', 'h', 'i', 'j', 'k', 'l', 'm', 'n', 'o', 'p'],
   [('q', [0, 1, 2, 3]), ('r', [4, 5, 6, 7]), ('s', [8, 9, 10, 11]), ('t', [12, 13, 14, 15])],
   [], []⟩

/-- The assignment selecting all sixteen items of `dEx` and activating all
four groups. -/
def vEx : Assignment :=
  ⟨fun i => decide (i < 16), fun j => decide (j < 4)⟩

theorem vEx_satisfies : assertedConstraints dEx vEx = true := by decide

theorem oracleStreamEx : OracleStream dEx [vEx] := by
  constructor
  · intro v hv
    rw [List.mem_singleton.mp hv]
    exact vEx_satisfies
  · exact List.pairwise_singleton _ _

/-- Two disjoint groups of four over eight items. -/
def dC3 : Data Char :=
  ⟨['a', 'b', 'c', 'd', 'e', 'f', 'g', 'h'],
   [('x', [0, 1, 2, 3]), ('y', [4, 5, 6, 7])], [], []⟩

/-- A configuration whose only avoid-set names the same item twice. -/
def cfgC7 : RawConfig Char :=
  ⟨['a', 'b', 'c', 'd'], [], some ⟨[['a', 'a']], []⟩⟩

/-- A configuration whose single group references a name that is not in
the item universe. -/
def cfgC9 : RawConfig Char :=
  ⟨['a'], [('g', ['z'])], none⟩

/-! ## Claim theorems -/

/-- Claim C1: in every solution yielded by the enumeration loop in `main`,
exactly 16 of the item (name) variables are assigned true — for every
domain model (input configuration) and every solution stream the oracle
can produce, since every yielded solution satisfies the asserted
global-total formula `exactly(name_variables, 16)`. -/
theorem claim1_yielded_total_16 {σ : Type} (d : Data σ) (sols : List Assignment)
    (h : OracleStream d sols) :
    ∀ v ∈ mainSolutions sols,
      ((List.range d.names.length).map (fun i => v.item i)).count true = 16 :=
  fun v hv => assertedConstraints_total d v (h.1 v (mem_mainSolutions sols v hv))

theorem claim1_witness :
    ((List.range dEx.names.length).map (fun i => vEx.item i)).count true = 16 :=
  claim1_yielded_total_16 dEx [vEx] oracleStreamEx vEx (List.mem_singleton.mpr rfl)

/-- Claim C2: in every solution yielded by the enumeration loop in `main`,
every group whose group variable is assigned true has exactly 4 of its
member item variables assigned true (member occurrences counted with
multiplicity, exactly as the asserted `exactly(members, 4)` formula
counts them). -/
theorem claim2_yielded_group_card {σ : Type} (d : Data σ) (sols : List Assignment)
    (h : OracleStream d sols) :
    ∀ v ∈ mainSolutions sols, ∀ j, j < d.props.length → v.group j = true →
      ((members d j).map (fun x => v.item x)).count true = 4 :=
  fun v hv j hj hg =>
    assertedConstraints_groupCard d v (h.1 v (mem_mainSolutions sols v hv)) j hj hg

theorem claim2_witness :
    ((members dEx 0).map (fun x => vEx.item x)).count true = 4 :=
  claim2_yielded_group_card dEx [vEx] oracleStreamEx vEx (List.mem_singleton.mpr rfl)
    0 (by decide) (by decide)

/-- Claim C3 counterexample: in `dC3` groups 1 and 0 have empty member
intersection, yet the pair is not skipped — the `pairwise` vector consists
exactly of the entry `(1, 0, [])`, and `main` asserts one overlap-coherence
formula per entry of that vector, so an assertion is made for this
empty-intersection pair. -/
theorem claim3_counterexample :
    intersection (members dC3 1) (members dC3 0) = [] ∧
    pairwiseList dC3 = [(1, 0, [])] :=
  ⟨rfl, rfl⟩

/-- Claim C3 amended: the encoder asserts an overlap-coherence formula for
every unordered pair of distinct groups — pairs with empty member
intersection are not skipped — and for an empty intersection the asserted
formula is valid (true under every assignment), so asserting it is
semantically harmless. -/
theorem claim3_no_pair_skipped {σ : Type} (d : Data σ) :
    (∀ i j, j < i → i < d.props.length →
      (i, j, intersection (members d i) (members d j)) ∈ pairwiseList d) ∧
    (∀ (v : Assignment) (a b : Nat), evalPairFormula v (a, b, ([] : List Nat)) = true) := by
  constructor
  · intro i j hj hi
    rw [pairwiseList]
    apply List.mem_flatMap.mpr
    exact ⟨i, List.mem_range.mpr hi, List.mem_map.mpr ⟨j, List.mem_range.mpr hj, rfl⟩⟩
  · exact fun v a b => evalPairFormula_empty v a b

theorem claim3_witness :
    (1, 0, intersection (members dC3 1) (members dC3 0)) ∈ pairwiseList dC3 ∧
    evalPairFormula vEx (1, 0, ([] : List Nat)) = true :=
  ⟨(claim3_no_pair_skipped dC3).1 1 0 (by decide) (by decide),
   (claim3_no_pair_skipped dC3).2 vEx 1 0⟩

/-- Claim C4: the enumeration loop in `main` yields at most 10 solutions,
and no two yielded solutions agree on the combined (item-variable,
group-variable) value pair — distinctness is over exactly the projected
variable pair, so assignments differing only elsewhere are not both
yielded. -/
theorem claim4_take10_distinct {σ : Type} (d : Data σ) (sols : List Assignment)
    (h : OracleStream d sols) :
    (mainSolutions sols).length ≤ 10 ∧
    List.Pairwise (fun v w => projectSolution d v ≠ projectSolution d w)
      (mainSolutions sols) :=
  ⟨List.length_take_le 10 sols, h.2.sublist (List.take_sublist 10 sols)⟩

theorem claim4_witness :
    (mainSolutions [vEx]).length ≤ 10 ∧
    List.Pairwise (fun v w => projectSolution dEx v ≠ projectSolution dEx w)
      (mainSolutions [vEx]) :=
  claim4_take10_distinct dEx [vEx] oracleStreamEx

/-- Claim C5: for all ascending duplicate-free index sequences `A`, `B`,
the two-pointer `intersection` equals the reference set intersection, is
commutative, satisfies `intersection(A,A) = A` and
`intersection(A,[]) = []`. -/
theorem claim5_intersection_correct (A B : List Nat)
    (hA : A.Sorted (· < ·)) (hB : B.Sorted (· < ·)) :
    intersection A B = setIntersectionRef A B ∧
    intersection A B = intersection B A ∧
    intersection A A = A ∧
    intersection A [] = [] :=
  ⟨intersection_eq_filter A B hA hB, intersection_comm A B hA hB,
   intersection_self A hA, intersection_nil A⟩

theorem claim5_witness :
    intersection [1, 3, 5] [2, 3, 6] = setIntersectionRef [1, 3, 5] [2, 3, 6] ∧
    intersection [1, 3, 5] [2, 3, 6] = intersection [2, 3, 6] [1, 3, 5] ∧
    intersection [1, 3, 5] [1, 3, 5] = [1, 3, 5] ∧
    intersection [1, 3, 5] [] = [] :=
  claim5_intersection_correct [1, 3, 5] [2, 3, 6] (by decide) (by decide)

/-- Claim C6: `exactly(vars, k)` is the conjunction of the at-least-k and
at-most-k cardinality formulas over the same variable list, and is
satisfied by an assignment iff precisely `k` of the variables are true
under it; this holds for every `k` — including `k = 0` and
`k = |vars|` — with no special-casing.  `vals` is the sequence of values
the assignment gives the variables. -/
theorem claim6_exactly_correct (vals : List Bool) (k : Nat) :
    exactly vals k = (atleast vals k && atmost vals k) ∧
    (exactly vals k = true ↔ vals.count true = k) :=
  ⟨rfl, exactly_iff_count vals k⟩

/-- Claim C7 counterexample: in the configuration `cfgC7` whose avoid-set
lists the name `a` twice, `create_data` succeeds and produces the avoid
index list `[0, 0]`, which is not duplicate-free. -/
theorem claim7_counterexample :
    create_data cfgC7 = .ok ⟨['a', 'b', 'c', 'd'], [], [[0, 0]], []⟩ ∧
    ¬ ([0, 0] : List Nat).Nodup :=
  ⟨rfl, by decide⟩

/-- Claim C7 amended: every avoid-set index list produced by `create_data`
is sorted ascending, but it is not deduplicated — duplicate name
references in one avoid-set are preserved as duplicate indices. -/
theorem claim7_avoid_sorted {σ : Type} [LinearOrder σ] [ToString σ]
    (cfg : RawConfig σ) (d : Data σ) (h : create_data cfg = .ok d) :
    ∀ l ∈ d.avoid_grouping, l.Sorted (· ≤ ·) := by
  obtain ⟨nms, ps, lims⟩ := cfg
  rw [create_data] at h
  cases hrp : resolveProps (List.insertionSort (· ≤ ·) nms) ps with
  | error e => rw [hrp] at h; exact absurd h (by simp)
  | ok props0 =>
    rw [hrp] at h
    dsimp only at h
    cases lims with
    | none =>
      rw [← (Except.ok.injEq _ _).mp h]
      intro l hl
      exact absurd hl (List.not_mem_nil l)
    | some lim =>
      dsimp only at h
      cases hra : resolveAvoid (List.insertionSort (· ≤ ·) nms) lim.avoid_grouping with
      | error e => rw [hra] at h; exact absurd h (by simp)
      | ok avoid0 =>
        rw [hra] at h
        dsimp only at h
        cases hri : resolveIgnore (List.insertionSort propRel props0) lim.ignore_groups with
        | error e => rw [hri] at h; exact absurd h (by simp)
        | ok ignore0 =>
          rw [hri] at h
          rw [← (Except.ok.injEq _ _).mp h]
          intro l hl
          exact resolveAvoid_ok_sorted _ lim.avoid_grouping avoid0 hra l
            ((List.perm_insertionSort vecRel avoid0).mem_iff.mp hl)

theorem claim7_witness : ([0, 0] : List Nat).Sorted (· ≤ ·) :=
  claim7_avoid_sorted cfgC7 (Data.mk ['a', 'b', 'c', 'd'] [] [[0, 0]] []) rfl
    [0, 0] (by decide)

/-- Claim C8: whenever `intersection` is called with an input that is not
sorted, the defensive assertion fails (no result is produced) rather than
any result being returned — in particular it never recovers by re-sorting
the input. -/
theorem claim8_unsorted_asserts (v1 v2 : List Nat)
    (h : is_sorted v1 = false ∨ is_sorted v2 = false) :
    intersectionChecked v1 v2 = none := by
  rw [intersectionChecked]
  rcases h with h | h <;> rw [h] <;> simp

theorem claim8_witness : intersectionChecked [2, 1] [0] = none :=
  claim8_unsorted_asserts [2, 1] [0] (Or.inl (by decide))

/-- Claim C9: `create_data` fails with a lookup error carrying the panic
message `name "…" not found` if and only if some item name referenced in a
group or avoid-set is absent from the item universe or some ignore-group
name has no corresponding group; with no such miss it returns the model
without failing. -/
theorem claim9_create_data_lookup {σ : Type} [LinearOrder σ] [ToString σ]
    (cfg : RawConfig σ) :
    ((∃ n : σ, create_data cfg = .error (nameNotFound n)) ↔ hasMiss cfg = true) ∧
    ((∃ d, create_data cfg = .ok d) ↔ hasMiss cfg = false) := by
  constructor
  · constructor
    · rintro ⟨n, hn⟩
      cases hm : hasMiss cfg
      · obtain ⟨d, hd⟩ := create_data_ok_of_noMiss cfg hm
        rw [hd] at hn
        exact absurd hn (by simp)
      · rfl
    · intro hm
      cases hc : create_data cfg with
      | error e =>
        obtain ⟨n, hn⟩ := create_data_error_shape cfg e hc
        exact ⟨n, congrArg Except.error hn⟩
      | ok d =>
        rw [create_data_noMiss_of_ok cfg d hc] at hm
        exact absurd hm (by simp)
  · constructor
    · rintro ⟨d, hd⟩
      exact create_data_noMiss_of_ok cfg d hd
    · exact create_data_ok_of_noMiss cfg

theorem claim9_witness :
    hasMiss cfgC9 = true ∧
    ∃ n : Char, create_data cfgC9 = .error (nameNotFound n) :=
  ⟨by decide, (claim9_create_data_lookup cfgC9).1.mpr (by decide)⟩

/-- Claim C10: the overlap-coherence formula built for a pair with empty
member intersection is valid — true under every assignment — and
consequently the full asserted formula of `main` has exactly the same
satisfying assignments as the encoder variant that omits every
empty-intersection pair. -/
theorem claim10_skip_equiv {σ : Type} (d : Data σ) (v : Assignment) :
    (∀ a b : Nat, evalPairFormula v (a, b, ([] : List Nat)) = true) ∧
    assertedConstraints d v = assertedConstraintsSkip d v := by
  constructor
  · exact fun a b => evalPairFormula_empty v a b
  · have hpw : evalPairwise d v = evalPairwiseSkip d v := by
      rw [evalPairwise, evalPairwiseSkip, pairwiseListSkip]
      apply all_filter_of_true
      intro t ht hemp
      have hnil : t.2.2 = [] := by
        rwa [Bool.not_eq_false', List.isEmpty_iff] at hemp
      obtain ⟨a, b, l⟩ := t
      dsimp only at hnil
      rw [hnil]
      exact evalPairFormula_empty v a b
    rw [assertedConstraints, assertedConstraintsSkip, hpw]
